import Mathlib

/-!
Verification development for the markdown heading splitters of the Pursue
repository (`scripts/split-markdown-chapters.py` and
`scripts/split-markdown-sections.py`).

Text is modelled as `List Char`.  Python `str.splitlines(keepends=True)`,
`str.strip`, `str.lower`, the regular expressions used by the scripts, and
`pathlib.Path.stem` are embedded as executable Lean functions below; each
definition carries a comment naming the Python construct it embeds.
Unicode-only corners that the scripts never exercise (non-ASCII decimal
digits for `\d`, non-ASCII case mapping for `str.lower`) are embedded at
the ASCII level.
-/

/-- Character class of Python `str.isspace` / regex `\s` (CPython
`Py_UNICODE_ISSPACE`): ASCII whitespace, `\x1c`-`\x1f`, NEL, NBSP and the
Unicode space separators. -/
def pyIsSpace (c : Char) : Bool :=
  decide (c.toNat ∈ ([9, 10, 11, 12, 13, 28, 29, 30, 31, 32, 0x85, 0xa0, 0x1680] : List Nat))
    || decide (0x2000 ≤ c.toNat ∧ c.toNat ≤ 0x200a)
    || decide (c.toNat ∈ ([0x2028, 0x2029, 0x202f, 0x205f, 0x3000] : List Nat))

/-- Line boundaries of Python `str.splitlines`: LF, VT, FF, CR, FS, GS, RS,
NEL, LINE SEPARATOR, PARAGRAPH SEPARATOR (CRLF is handled as one boundary in
`splitlinesAux`). -/
def isLineBreak (c : Char) : Bool :=
  decide (c.toNat ∈ ([10, 11, 12, 13, 28, 29, 30, 0x85, 0x2028, 0x2029] : List Nat))

/-- Regex character class `[a-z0-9]` from `heading_to_slug` (code points of
`'a'`-`'z'` and `'0'`-`'9'`). -/
def isAlnumLower (c : Char) : Bool :=
  decide (97 ≤ c.toNat ∧ c.toNat ≤ 122) || decide (48 ≤ c.toNat ∧ c.toNat ≤ 57)

/-- Regex `\d` (ASCII decimal digit, code points of `'0'`-`'9'`). -/
def isDigitCh (c : Char) : Bool :=
  decide (48 ≤ c.toNat ∧ c.toNat ≤ 57)

/-- ASCII lowercasing, embedding `str.lower` on the ASCII range. -/
def pyToLower (c : Char) : Char :=
  if 'A' ≤ c ∧ c ≤ 'Z' then Char.ofNat (c.toNat + 32) else c

/-- Worker for `splitlines(keepends=True)`: `acc` is the reversed current
line body; a boundary character (with CRLF as a single boundary) closes the
current line and is kept at its end. -/
def splitlinesAux : List Char → List Char → List (List Char)
  | acc, [] => if acc.isEmpty then [] else [acc.reverse]
  | acc, '\r' :: '\n' :: rest => (acc.reverse ++ ['\r', '\n']) :: splitlinesAux [] rest
  | acc, c :: rest =>
    if isLineBreak c then (acc.reverse ++ [c]) :: splitlinesAux [] rest
    else splitlinesAux (c :: acc) rest

/-- Python `text.splitlines(keepends=True)` on a document given as a
character list. -/
def splitlines (s : List Char) : List (List Char) :=
  splitlinesAux [] s

/-- Python `s.strip(chars-matching-p)`: drop the longest run of `p`-characters
from the front and from the back. -/
def pyStripWith (p : Char → Bool) (s : List Char) : List Char :=
  (s.dropWhile p).rdropWhile p

/-- Python `s.strip()` (no argument: strip whitespace). -/
def pyStrip (s : List Char) : List Char :=
  pyStripWith pyIsSpace s

/-- Embedding of `re.match(r"^## (.+)$", line)` (respectively `^### (.+)$`,
and generally `depth` hashes).  The line must start with `depth` `#`
characters and one space; `(.+)` greedily captures at least one non-newline
character and `$` allows one trailing `'\n'`.  Returns group 1 on a match. -/
def matchHeading (depth : Nat) (line : List Char) : Option (List Char) :=
  if (List.replicate depth '#' ++ [' ']) <+: line then
    let rest := line.drop (depth + 1)
    let core := if rest.getLast? = some '\n' then rest.dropLast else rest
    if core = [] ∨ '\n' ∈ core then none else some core
  else none

/-- The scanning loop `for i, line in enumerate(lines): if m: append((i + 1,
m.group(1).strip()))` of both scripts, started with `i0 = 1` to record
1-based line numbers. -/
def scanFrom (depth : Nat) (i0 : Nat) : List (List Char) → List (Nat × List Char)
  | [] => []
  | l :: ls =>
    match matchHeading depth l with
    | some g => (i0, pyStrip g) :: scanFrom depth (i0 + 1) ls
    | none => scanFrom depth (i0 + 1) ls

/-- Chapter-mode pass `re.sub(r"^\d+\.\s*", "", s)`: strip one leading
integer, a dot, and any following whitespace. -/
def stripNumDot (s : List Char) : List Char :=
  if (s.takeWhile isDigitCh).isEmpty then s
  else
    match s.dropWhile isDigitCh with
    | '.' :: t => t.dropWhile pyIsSpace
    | _ => s

/-- Section-mode first pass `re.sub(r"^\d+\.\d+\.?\s*", "", s)`: strip a
dotted pair of integers, an optional dot, and any following whitespace. -/
def stripNumNum (s : List Char) : List Char :=
  if (s.takeWhile isDigitCh).isEmpty then s
  else
    match s.dropWhile isDigitCh with
    | '.' :: t =>
      if (t.takeWhile isDigitCh).isEmpty then s
      else
        match t.dropWhile isDigitCh with
        | '.' :: v => v.dropWhile pyIsSpace
        | u => u.dropWhile pyIsSpace
    | _ => s

/-- Section-mode second pass `re.sub(r"^\d+\.?\s*", "", s)`: strip one
leading integer, an optional dot, and any following whitespace. -/
def stripNum (s : List Char) : List Char :=
  if (s.takeWhile isDigitCh).isEmpty then s
  else
    match s.dropWhile isDigitCh with
    | '.' :: v => v.dropWhile pyIsSpace
    | u => u.dropWhile pyIsSpace

/-- The hyphen character class of `re.sub(r"-+", "-", s)` and `s.strip("-")`. -/
def isDash (c : Char) : Bool :=
  decide (c = '-')

/-- Worker for `re.sub(r"[^a-z0-9]+", "-", s)`: each maximal run of
characters outside `[a-z0-9]` becomes a single hyphen; `inRun` records
whether the previous character belonged to such a run. -/
def subNonAlnumAux (inRun : Bool) : List Char → List Char
  | [] => []
  | c :: rest =>
    if isAlnumLower c then c :: subNonAlnumAux false rest
    else if inRun then subNonAlnumAux true rest
    else '-' :: subNonAlnumAux true rest

/-- `re.sub(r"[^a-z0-9]+", "-", s)`. -/
def subNonAlnum (s : List Char) : List Char :=
  subNonAlnumAux false s

/-- Worker for `re.sub(r"-+", "-", s)`: collapse each maximal run of hyphens
to a single hyphen. -/
def collapseHyphensAux (inRun : Bool) : List Char → List Char
  | [] => []
  | c :: rest =>
    if c = '-' then
      if inRun then collapseHyphensAux true rest
      else '-' :: collapseHyphensAux true rest
    else c :: collapseHyphensAux false rest

/-- `re.sub(r"-+", "-", s)`. -/
def collapseHyphens (s : List Char) : List Char :=
  collapseHyphensAux false s

/-- `heading_to_slug` of `split-markdown-chapters.py`. -/
def heading_to_slug (heading : List Char) : List Char :=
  let s := pyStrip (stripNumDot heading)
  let s := s.map pyToLower
  let s := subNonAlnum s
  let s := pyStripWith isDash (collapseHyphens s)
  if s.isEmpty then "chapter".toList else s

/-- `heading_to_slug` of `split-markdown-sections.py` (two sequential strip
passes, default token `"section"`). -/
def heading_to_slug_sec (heading : List Char) : List Char :=
  let s := pyStrip (stripNumNum heading)
  let s := pyStrip (stripNum s)
  let s := s.map pyToLower
  let s := subNonAlnum s
  let s := pyStripWith isDash (collapseHyphens s)
  if s.isEmpty then "section".toList else s

/-- Worker for the `(?:\.\d+)*` part of `extract_section_number`: greedily
consume further `.digits` groups.  Returns the consumed prefix and the rest.
Fuelled to keep the recursion structural; `fuel ≥ length of the input`
suffices. -/
def groupsFromAux : Nat → List Char → List Char × List Char
  | 0, s => ([], s)
  | _ + 1, [] => ([], [])
  | fuel + 1, c :: t =>
    if c = '.' then
      if (t.takeWhile isDigitCh).isEmpty then ([], c :: t)
      else
        let pr := groupsFromAux fuel (t.dropWhile isDigitCh)
        ('.' :: (t.takeWhile isDigitCh ++ pr.1), pr.2)
    else ([], c :: t)

/-- The `\.?\s+` tail of `extract_section_number`'s regex, applied after the
greedy group parse: succeed (returning the group `g`) iff the remainder
starts with whitespace, or with a dot followed by whitespace. -/
def sepSpaceTest (g : List Char) : List Char → List Char
  | [] => []
  | [c] => if c = '.' then [] else if pyIsSpace c then g else []
  | c :: c2 :: _ => if c = '.' then (if pyIsSpace c2 then g else []) else if pyIsSpace c then g else []

/-- `extract_section_number` of `split-markdown-sections.py`, i.e.
`re.match(r"^(\d+(?:\.\d+)*)\.?\s+", heading)`; returns the group or `[]`
("no match", Python returns `""`).  The regex is deterministic here:
backtracking out of a `.digits` group can never succeed, because the next
pattern element would have to match `'.'` or a digit as whitespace, so the
greedy parse (`groupsFromAux`) followed by the tail test is exact. -/
def extract_section_number (heading : List Char) : List Char :=
  if (heading.takeWhile isDigitCh).isEmpty then []
  else
    let pr := groupsFromAux heading.length (heading.dropWhile isDigitCh)
    sepSpaceTest (heading.takeWhile isDigitCh ++ pr.1) pr.2

/-- Index of the last occurrence of `c`, as in CPython `str.rfind` used by
`PurePath.stem`. -/
def rfindIdx (c : Char) : List Char → Option Nat
  | [] => none
  | x :: rest =>
    match rfindIdx c rest with
    | some j => some (j + 1)
    | none => if x = c then some 0 else none

/-- `pathlib.PurePath.stem`: the file name with its last suffix removed
(CPython: `name[:i]` when the last `'.'` sits at `0 < i < len(name) - 1`,
otherwise `name`). -/
def pathStem (name : List Char) : List Char :=
  match rfindIdx '.' name with
  | some i => if 0 < i ∧ i < name.length - 1 then name.take i else name
  | none => name

/-- `pathlib` `dir / name`. -/
def pathJoin (dir name : List Char) : List Char :=
  dir ++ '/' :: name

/-- Decimal digit character. -/
def digitChar (d : Nat) : Char :=
  Char.ofNat (48 + d)

/-- Worker for decimal formatting; `fuel ≥ n` suffices. -/
def natDigitsAux : Nat → Nat → List Char
  | 0, _ => []
  | fuel + 1, n =>
    if n = 0 then [] else natDigitsAux fuel (n / 10) ++ [digitChar (n % 10)]

/-- Decimal representation of `n`, as Python `str(n)` for `n ≥ 0`. -/
def natDigits (n : Nat) : List Char :=
  if n = 0 then ['0'] else natDigitsAux n n

/-- Python format `f"{n:02d}"` for `n ≥ 0`: pad with `'0'` to width 2. -/
def fmt02 (n : Nat) : List Char :=
  if (natDigits n).length < 2 then '0' :: natDigits n else natDigits n

/-- Chapter output file name `f"{i:02d}-{slug}.md"` (the script passes
`i + 1` of the 0-based enumeration). -/
def chapterName (i : Nat) (heading : List Char) : List Char :=
  fmt02 i ++ '-' :: (heading_to_slug heading ++ ".md".toList)

/-- Section output file name: `f"{section_number}-{slug}.md"` when a section
number was extracted, else the sequential `f"{i:02d}-{slug}.md"`. -/
def sectionName (i : Nat) (heading : List Char) : List Char :=
  let sn := extract_section_number heading
  if sn.isEmpty then fmt02 i ++ '-' :: (heading_to_slug_sec heading ++ ".md".toList)
  else sn ++ '-' :: (heading_to_slug_sec heading ++ ".md".toList)

/-- The writer loop shared by both scripts: for the `i`-th heading match
`(start_line, heading)` the chunk is `lines[start_line - 1 : end_line - 1]`
where `end_line` is the next match's line (or `len(lines) + 1`), and the
file name is `mk (i + 1) heading`.  Produces the `(path, content)` pairs in
write order. -/
def buildFiles (mk : Nat → List Char → List Char) (lines : List (List Char)) :
    Nat → List (Nat × List Char) → List (List Char × List Char)
  | _, [] => []
  | i, (s, h) :: rest =>
    let e := match rest with
      | [] => lines.length + 1
      | (s2, _) :: _ => s2
    (mk (i + 1) h, ((lines.drop (s - 1)).take (e - s)).flatten) :: buildFiles mk lines (i + 1) rest

/-- `main` of `split-markdown-chapters.py` on a document `text`, writing into
`outDir`: scan for `## ` headings, fail with the script's diagnostic when
none is found, otherwise produce the `(path, contents)` pairs written (the
filesystem checks on the source path and the `mkdir` side effect are outside
the text-level model; the `mkdir` is sequenced after the emptiness check). -/
def runChapters (outDir text : List Char) :
    Except (List Char) (List (List Char × List Char)) :=
  let lines := splitlines text
  let ms := scanFrom 2 1 lines
  if ms.isEmpty then Except.error ("No ## chapters found.".toList)
  else Except.ok (buildFiles (fun i h => pathJoin outDir (chapterName i h)) lines 0 ms)

/-- `main` of `split-markdown-sections.py` on a document `text` whose source
file has parent directory `parent` and file name `fname`: the output
directory is `get_output_dir`, i.e. `parent / stem(fname)`. -/
def runSections (parent fname text : List Char) :
    Except (List Char) (List (List Char × List Char)) :=
  let outDir := pathJoin parent (pathStem fname)
  let lines := splitlines text
  let ms := scanFrom 3 1 lines
  if ms.isEmpty then Except.error ("No ### sections found.".toList)
  else Except.ok (buildFiles (fun i h => pathJoin outDir (sectionName i h)) lines 0 ms)

/-- Spec-side reading of the heading grammar: the line begins with exactly
`depth` marker characters followed by a single separator space and at least
one character of heading text (the regex capture `(.+)`, which may not span
the line's terminating newline). -/
def specHeading (depth : Nat) (line : List Char) : Prop :=
  ∃ a b, line = List.replicate depth '#' ++ ' ' :: (a ++ b) ∧
    a ≠ [] ∧ '\n' ∉ a ∧ (b = [] ∨ b = ['\n'])

/-- Spec-side matcher for the tail of `^[a-z0-9]+(-[a-z0-9]+)*$`: every
character is in `[a-z0-9]`, or is a hyphen followed by a `[a-z0-9]`
character. -/
def slugTail : List Char → Bool
  | [] => true
  | c :: rest =>
    (if c = '-' then
        match rest with
        | [] => false
        | d :: _ => isAlnumLower d
      else isAlnumLower c) && slugTail rest

/-- Spec-side matcher for the slug shape `^[a-z0-9]+(-[a-z0-9]+)*$`. -/
def slugShape : List Char → Bool
  | [] => false
  | c :: rest => isAlnumLower c && slugTail rest

/-- The (1-based, exclusive) end line of the `i`-th chunk: the next match's
start line, or `len(lines) + 1` for the last chunk. -/
def chunkEnd (lines : List (List Char)) (ms : List (Nat × List Char)) (i : Nat) : Nat :=
  match ms[i + 1]? with
  | some p => p.1
  | none => lines.length + 1

/-- A nonempty all-digit group, as in the spec's "integer group". -/
def isDigitGroup (d : List Char) : Prop :=
  d ≠ [] ∧ ∀ c ∈ d, isDigitCh c = true

/-- Dot-separated rendering of a nonempty sequence of groups:
`d₁.d₂. ⋯ .dₖ`. -/
def dottedGroups : List (List Char) → List Char
  | [] => []
  | d :: rest => d ++ (rest.map (fun x => '.' :: x)).flatten

/-- Decimal parsing, used to invert `natDigits`. -/
def parseDec (l : List Char) : Nat :=
  l.foldl (fun a c => a * 10 + (c.toNat - 48)) 0

/-! ### Generic list helpers -/

theorem dropWhile_length_le {α : Type} (p : α → Bool) :
    ∀ l : List α, (l.dropWhile p).length ≤ l.length := by
  intro l
  induction l with
  | nil => simp
  | cons a l ih =>
    rw [List.dropWhile_cons]
    split
    · exact Nat.le_trans ih (Nat.le_succ _)
    · exact Nat.le_refl _

theorem takeWhile_dropWhile_append {α : Type} (p : α → Bool) :
    ∀ (l₁ : List α) {b : α} (l₂ : List α), (∀ a ∈ l₁, p a = true) → p b = false →
      (l₁ ++ b :: l₂).takeWhile p = l₁ ∧ (l₁ ++ b :: l₂).dropWhile p = b :: l₂ := by
  intro l₁
  induction l₁ with
  | nil =>
    intro b l₂ _ hb
    simp [List.takeWhile_cons, List.dropWhile_cons, hb]
  | cons a l ih =>
    intro b l₂ hall hb
    have ha : p a = true := hall a (by simp)
    have := ih l₂ (fun x hx => hall x (by simp [hx])) hb
    simp [List.takeWhile_cons, List.dropWhile_cons, ha, this.1, this.2]

/-! ### Scanner and writer-loop lemmas -/

theorem scanFrom_eq_nil (d : Nat) :
    ∀ (ls : List (List Char)) (i0 : Nat), (∀ l ∈ ls, matchHeading d l = none) →
      scanFrom d i0 ls = [] := by
  intro ls
  induction ls with
  | nil => intro i0 _; rfl
  | cons l ls ih =>
    intro i0 h
    have hl : matchHeading d l = none := h l (by simp)
    simp only [scanFrom, hl]
    exact ih (i0 + 1) (fun x hx => h x (by simp [hx]))

theorem scanFrom_length (d : Nat) :
    ∀ (ls : List (List Char)) (i0 : Nat),
      (scanFrom d i0 ls).length = ls.countP (fun l => (matchHeading d l).isSome) := by
  intro ls
  induction ls with
  | nil => intro i0; rfl
  | cons l ls ih =>
    intro i0
    rw [List.countP_cons]
    cases hm : matchHeading d l with
    | none => simp only [scanFrom, hm]; rw [ih]; simp [hm]
    | some g => simp only [scanFrom, hm]; rw [List.length_cons, ih]; simp [hm]

theorem buildFiles_length (mk : Nat → List Char → List Char) (lines : List (List Char)) :
    ∀ (ms : List (Nat × List Char)) (i : Nat), (buildFiles mk lines i ms).length = ms.length := by
  intro ms
  induction ms with
  | nil => intro i; rfl
  | cons p rest ih =>
    intro i
    obtain ⟨s, h⟩ := p
    simp only [buildFiles, List.length_cons, ih]

/-! ### Strip and heading-matcher lemmas -/

theorem pyStripWith_concat_pos (p : Char → Bool) (c : Char) (hc : p c = true) :
    ∀ x : List Char, pyStripWith p (x ++ [c]) = pyStripWith p x := by
  intro x
  induction x with
  | nil => simp [pyStripWith, List.dropWhile_cons, hc]
  | cons a x ih =>
    by_cases ha : p a = true
    · simpa [pyStripWith, List.dropWhile_cons, ha] using ih
    · simp only [pyStripWith, List.cons_append, List.dropWhile_cons, ha, if_neg]
      rw [show a :: (x ++ [c]) = (a :: x) ++ [c] from rfl]
      simp only [Bool.false_eq_true, if_false]
      exact List.rdropWhile_concat_pos p (a :: x) c hc

theorem drop_marker (d : Nat) (a line : List Char)
    (h : line = List.replicate d '#' ++ ' ' :: a) : line.drop (d + 1) = a := by
  have hlen : (List.replicate d '#' ++ [' ']).length = d + 1 := by
    simp [List.length_append, List.length_replicate]
  rw [h, show List.replicate d '#' ++ ' ' :: a = (List.replicate d '#' ++ [' ']) ++ a by simp,
    ← hlen]
  exact List.drop_left _ _

/-- Full characterization of the regex `^#{depth} (.+)$`: it returns `some g`
exactly when the line is marker, separator space, then `g` (nonempty, free of
newlines) and an optional final newline. -/
theorem matchHeading_eq_some_iff (d : Nat) (line g : List Char) :
    matchHeading d line = some g ↔
      ∃ b, line = List.replicate d '#' ++ ' ' :: (g ++ b) ∧
        g ≠ [] ∧ '\n' ∉ g ∧ (b = [] ∨ b = ['\n']) := by
  constructor
  · intro h
    simp only [matchHeading] at h
    by_cases hpre : (List.replicate d '#' ++ [' ']) <+: line
    · rw [if_pos hpre] at h
      obtain ⟨tail, htail⟩ := hpre
      have hline : line = List.replicate d '#' ++ ' ' :: tail := by
        rw [← htail]; simp
      have hrest : line.drop (d + 1) = tail := drop_marker d tail line hline
      rw [hrest] at h
      by_cases hlast : tail.getLast? = some '\n'
      · rw [if_pos hlast] at h
        split at h
        · exact absurd h (by simp)
        · next hcond =>
          have hcore : tail.dropLast = g := by
            have := congrArg (fun o => o.getD []) h
            simpa using this
          push_neg at hcond
          refine ⟨['\n'], ?_, hcore ▸ hcond.1, hcore ▸ hcond.2, Or.inr rfl⟩
          rw [hline, ← hcore]
          have : tail.dropLast ++ ['\n'] = tail := by
            have hne : tail ≠ [] := by
              intro h0; rw [h0] at hlast; simp at hlast
            have hg := List.getLast?_eq_getLast_of_ne_nil hne
            rw [hlast] at hg
            have : tail.getLast hne = '\n' := by
              have := hg.symm
              simpa using this
            rw [← this]
            exact List.dropLast_append_getLast hne
          rw [this]
      · rw [if_neg hlast] at h
        split at h
        · exact absurd h (by simp)
        · next hcond =>
          have hcore : tail = g := by
            have := congrArg (fun o => o.getD []) h
            simpa using this
          push_neg at hcond
          exact ⟨[], by rw [hline, hcore, List.append_nil],
            hcore ▸ hcond.1, hcore ▸ hcond.2, Or.inl rfl⟩
    · rw [if_neg hpre] at h
      exact absurd h (by simp)
  · rintro ⟨b, hline, hg, hnin, hb⟩
    have hpre : (List.replicate d '#' ++ [' ']) <+: line := by
      refine ⟨g ++ b, ?_⟩
      rw [hline]; simp
    have hrest : line.drop (d + 1) = g ++ b := drop_marker d (g ++ b) line hline
    simp only [matchHeading, if_pos hpre, hrest]
    rcases hb with hb | hb
    · subst hb
      have hlast : ¬(g ++ []).getLast? = some '\n' := by
        intro hl
        exact hnin (by simpa using List.mem_of_mem_getLast? hl)
      rw [if_neg hlast, if_neg (by simp [hg, hnin])]
      simp
    · subst hb
      have hlast : (g ++ ['\n']).getLast? = some '\n' := List.getLast?_concat g
      rw [if_pos hlast, List.dropLast_concat, if_neg (by simp [hg, hnin])]

theorem matchHeading_isSome_iff (d : Nat) (line : List Char) :
    (matchHeading d line).isSome = true ↔ specHeading d line := by
  rw [Option.isSome_iff_exists]
  constructor
  · rintro ⟨g, hg⟩
    obtain ⟨b, hline, hne, hnin, hb⟩ := (matchHeading_eq_some_iff d line g).mp hg
    exact ⟨g, b, hline, hne, hnin, hb⟩
  · rintro ⟨a, b, hline, hne, hnin, hb⟩
    exact ⟨a, (matchHeading_eq_some_iff d line a).mpr ⟨b, hline, hne, hnin, hb⟩⟩

theorem specHeading_depth_unique :
    ∀ (d d' : Nat) (line : List Char), specHeading d line → specHeading d' line → d = d' := by
  intro d
  induction d with
  | zero =>
    intro d' line h h'
    cases d' with
    | zero => rfl
    | succ e =>
      obtain ⟨a, b, hl, -, -, -⟩ := h
      obtain ⟨a', b', hl', -, -, -⟩ := h'
      rw [hl] at hl'
      simp [List.replicate_succ] at hl'
  | succ e ih =>
    intro d' line h h'
    cases d' with
    | zero =>
      obtain ⟨a, b, hl, -, -, -⟩ := h
      obtain ⟨a', b', hl', -, -, -⟩ := h'
      rw [hl] at hl'
      simp [List.replicate_succ] at hl'
    | succ f =>
      obtain ⟨a, b, hl, ha, hn, hb⟩ := h
      obtain ⟨a', b', hl', ha', hn', hb'⟩ := h'
      simp only [List.replicate_succ, List.cons_append] at hl hl'
      rw [hl] at hl'
      injection hl' with _ htail
      have he : e = f := ih f (List.replicate e '#' ++ ' ' :: (a ++ b))
        ⟨a, b, rfl, ha, hn, hb⟩ (by rw [htail]; exact ⟨a', b', rfl, ha', hn', hb'⟩)
      rw [he]

/-! ### Slug-shape lemmas -/

theorem subNonAlnumAux_chars :
    ∀ (s : List Char) (b : Bool) (c : Char), c ∈ subNonAlnumAux b s →
      isAlnumLower c = true ∨ c = '-' := by
  intro s
  induction s with
  | nil => intro b c hc; simp [subNonAlnumAux] at hc
  | cons a s ih =>
    intro b c hc
    by_cases ha : isAlnumLower a = true
    · rw [subNonAlnumAux, if_pos ha] at hc
      rcases List.mem_cons.mp hc with h1 | h2
      · exact Or.inl (h1 ▸ ha)
      · exact ih false c h2
    · rw [subNonAlnumAux, if_neg ha] at hc
      by_cases hb : b = true
      · rw [if_pos hb] at hc
        exact ih true c hc
      · rw [if_neg hb] at hc
        rcases List.mem_cons.mp hc with h1 | h2
        · exact Or.inr h1
        · exact ih true c h2

theorem collapseHyphensAux_subset :
    ∀ (s : List Char) (b : Bool) (c : Char), c ∈ collapseHyphensAux b s → c ∈ s := by
  intro s
  induction s with
  | nil => intro b c hc; simp [collapseHyphensAux] at hc
  | cons a s ih =>
    intro b c hc
    by_cases ha : a = '-'
    · subst ha
      rw [collapseHyphensAux, if_pos rfl] at hc
      by_cases hb : b = true
      · rw [if_pos hb] at hc
        exact List.mem_cons_of_mem _ (ih true c hc)
      · rw [if_neg hb] at hc
        rcases List.mem_cons.mp hc with h1 | h2
        · exact h1 ▸ List.mem_cons_self _ _
        · exact List.mem_cons_of_mem _ (ih true c h2)
    · rw [collapseHyphensAux, if_neg ha] at hc
      rcases List.mem_cons.mp hc with h1 | h2
      · exact h1 ▸ List.mem_cons_self _ _
      · exact List.mem_cons_of_mem _ (ih false c h2)

theorem collapseHyphensAux_true_head :
    ∀ (s : List Char) (x : Char), (collapseHyphensAux true s).head? = some x → x ≠ '-' := by
  intro s
  induction s with
  | nil => intro x hx; simp [collapseHyphensAux] at hx
  | cons a s ih =>
    intro x hx
    by_cases ha : a = '-'
    · subst ha
      rw [collapseHyphensAux, if_pos rfl, if_pos rfl] at hx
      exact ih x hx
    · rw [collapseHyphensAux, if_neg ha] at hx
      simp only [List.head?_cons, Option.some_inj] at hx
      exact hx ▸ ha

theorem collapseHyphensAux_chain :
    ∀ (s : List Char) (b : Bool),
      List.Chain' (fun x y => ¬(x = '-' ∧ y = '-')) (collapseHyphensAux b s) := by
  intro s
  induction s with
  | nil => intro b; simp [collapseHyphensAux]
  | cons a s ih =>
    intro b
    by_cases ha : a = '-'
    · subst ha
      rw [collapseHyphensAux, if_pos rfl]
      by_cases hb : b = true
      · rw [if_pos hb]; exact ih true
      · rw [if_neg hb]
        refine List.chain'_cons'.mpr ⟨?_, ih true⟩
        intro y hy
        intro hcontra
        exact collapseHyphensAux_true_head s y hy hcontra.2
    · rw [collapseHyphensAux, if_neg ha]
      refine List.chain'_cons'.mpr ⟨?_, ih false⟩
      intro y _ hcontra
      exact ha hcontra.1

theorem pyStripWith_within (p : Char → Bool) (s : List Char) : pyStripWith p s <:+: s := by
  have h1 : s.dropWhile p <:+ s := List.dropWhile_suffix p
  have h2 := List.rdropWhile_prefix p (s.dropWhile p)
  exact List.IsInfix.trans (List.IsPrefix.isInfix h2) (List.IsSuffix.isInfix h1)

theorem pyStripWith_head (p : Char → Bool) (s : List Char) (x : Char)
    (hx : (pyStripWith p s).head? = some x) : p x = false := by
  unfold pyStripWith at hx
  have hne : (s.dropWhile p).rdropWhile p ≠ [] := by
    intro h0; rw [h0] at hx; simp at hx
  have hdne : s.dropWhile p ≠ [] := by
    intro h0; rw [h0, List.rdropWhile_nil] at hne; exact hne rfl
  have hpre := List.rdropWhile_prefix p (s.dropWhile p)
  obtain ⟨t, ht⟩ := hpre
  have hhead : (s.dropWhile p).head? = some x := by
    rw [← ht, List.head?_append_of_ne_nil _ hne, hx]
  have hh : (s.dropWhile p).head hdne = x := by
    have := List.head?_eq_head hdne
    rw [this] at hhead
    exact Option.some_inj.mp hhead
  exact hh ▸ List.head_dropWhile_not p s hdne

theorem pyStripWith_last (p : Char → Bool) (s : List Char) (x : Char)
    (hx : (pyStripWith p s).getLast? = some x) : p x = false := by
  unfold pyStripWith at hx
  have hne : (s.dropWhile p).rdropWhile p ≠ [] := by
    intro h0; rw [h0] at hx; simp at hx
  have hlast := List.rdropWhile_last_not p (s.dropWhile p) hne
  have hg := List.getLast?_eq_getLast_of_ne_nil hne
  rw [hg] at hx
  have : ((s.dropWhile p).rdropWhile p).getLast hne = x := Option.some_inj.mp hx
  rw [this] at hlast
  simpa using hlast

theorem slugTail_of_inv :
    ∀ l : List Char, (∀ c ∈ l, isAlnumLower c = true ∨ c = '-') →
      List.Chain' (fun x y => ¬(x = '-' ∧ y = '-')) l →
      (∀ h : l ≠ [], l.getLast h ≠ '-') → slugTail l = true := by
  intro l
  induction l with
  | nil => intro _ _ _; rfl
  | cons c rest ih =>
    intro hchars hchain hlast
    simp only [slugTail, Bool.and_eq_true]
    constructor
    · by_cases hc : c = '-'
      · subst hc
        cases rest with
        | nil => exact absurd rfl (hlast (by simp))
        | cons d rest2 =>
          have hd : d ≠ '-' := by
            intro h0
            exact (List.chain'_cons.mp hchain).1 ⟨rfl, h0⟩
          rcases hchars d (by simp) with h1 | h2
          · simp [h1]
          · exact absurd h2 hd
      · rcases hchars c (by simp) with h1 | h2
        · simp [hc, h1]
        · exact absurd h2 hc
    · apply ih
      · exact fun x hx => hchars x (by simp [hx])
      · exact hchain.tail
      · intro hne
        have hcast : (c :: rest).getLast (by simp) = rest.getLast hne := List.getLast_cons hne
        rw [← hcast]
        exact hlast _

theorem slugShape_of_inv :
    ∀ l : List Char, (∀ c ∈ l, isAlnumLower c = true ∨ c = '-') →
      List.Chain' (fun x y => ¬(x = '-' ∧ y = '-')) l →
      (∀ x, l.head? = some x → x ≠ '-') →
      (∀ h : l ≠ [], l.getLast h ≠ '-') → l ≠ [] → slugShape l = true := by
  intro l hchars hchain hhead hlast hne
  cases l with
  | nil => exact absurd rfl hne
  | cons c rest =>
    simp only [slugShape, Bool.and_eq_true]
    constructor
    · have hc : c ≠ '-' := hhead c (by simp)
      rcases hchars c (by simp) with h1 | h2
      · exact h1
      · exact absurd h2 hc
    · apply slugTail_of_inv
      · exact fun x hx => hchars x (by simp [hx])
      · exact hchain.tail
      · intro hne'
        have hcast : (c :: rest).getLast (by simp) = rest.getLast hne' := List.getLast_cons hne'
        rw [← hcast]
        exact hlast _

/-- The composed slug pipeline after the substitution passes is either empty
or matches the slug shape. -/
theorem slug_stripped_shape (s : List Char) :
    pyStripWith isDash (collapseHyphens (subNonAlnum s)) = [] ∨
      slugShape (pyStripWith isDash (collapseHyphens (subNonAlnum s))) = true := by
  by_cases hne : pyStripWith isDash (collapseHyphens (subNonAlnum s)) = []
  · exact Or.inl hne
  · right
    apply slugShape_of_inv
    · intro c hc
      have h1 : c ∈ collapseHyphens (subNonAlnum s) :=
        List.IsInfix.subset (pyStripWith_within _ _) hc
      exact subNonAlnumAux_chars _ _ _ (collapseHyphensAux_subset _ _ _ h1)
    · exact List.Chain'.infix (collapseHyphensAux_chain _ _) (pyStripWith_within _ _)
    · intro x hx
      exact of_decide_eq_false (pyStripWith_head isDash _ x hx)
    · intro hne'
      have hx := List.getLast?_eq_getLast_of_ne_nil hne'
      exact of_decide_eq_false (pyStripWith_last isDash _ _ hx)
    · exact hne

/-! ### Section-number extractor lemmas -/

theorem space_not_digit (c : Char) (h : pyIsSpace c = true) : isDigitCh c = false := by
  simp only [pyIsSpace, Bool.or_eq_true, decide_eq_true_eq, List.mem_cons,
    List.not_mem_nil, or_false] at h
  simp only [isDigitCh, decide_eq_false_iff_not, not_and, not_le]
  omega

theorem space_ne_dot (c : Char) (h : pyIsSpace c = true) : c ≠ '.' := by
  intro h0
  rw [h0] at h
  exact absurd h (by decide)

theorem spaceTail_head_not_digit :
    ∀ (parts : List (List Char)) (tail : List Char),
      (∀ d ∈ parts, isDigitGroup d) →
      (∃ sep c rest, (sep = [] ∨ sep = ['.']) ∧ pyIsSpace c = true ∧ tail = sep ++ c :: rest) →
      ∃ b l₂, (parts.map (fun x => '.' :: x)).flatten ++ tail = b :: l₂ ∧ isDigitCh b = false := by
  intro parts tail _ htail
  cases parts with
  | nil =>
    obtain ⟨sep, c, rest, hsep, hc, ht⟩ := htail
    rcases hsep with h | h
    · subst h
      exact ⟨c, rest, by simpa using ht, space_not_digit c hc⟩
    · subst h
      exact ⟨'.', c :: rest, by simpa using ht, by decide⟩
  | cons q parts' =>
    exact ⟨'.', q ++ ((parts'.map (fun x => '.' :: x)).flatten ++ tail), by simp, by decide⟩

theorem gf_sound :
    ∀ (fuel : Nat) (s : List Char), (groupsFromAux fuel s).1 ++ (groupsFromAux fuel s).2 = s := by
  intro fuel
  induction fuel with
  | zero => intro s; rfl
  | succ f ih =>
    intro s
    cases s with
    | nil => rfl
    | cons c t =>
      by_cases hc : c = '.'
      · subst hc
        by_cases hrun : (t.takeWhile isDigitCh).isEmpty = true
        · simp [groupsFromAux, hrun]
        · simp [groupsFromAux, hrun, List.cons_append, List.append_assoc,
            ih (t.dropWhile isDigitCh), List.takeWhile_append_dropWhile]
      · simp [groupsFromAux, hc]

theorem gf_shape :
    ∀ (fuel : Nat) (s : List Char), ∃ parts : List (List Char),
      (∀ d ∈ parts, isDigitGroup d) ∧
      (groupsFromAux fuel s).1 = (parts.map (fun x => '.' :: x)).flatten := by
  intro fuel
  induction fuel with
  | zero => intro s; exact ⟨[], by simp, rfl⟩
  | succ f ih =>
    intro s
    cases s with
    | nil => exact ⟨[], by simp, rfl⟩
    | cons c t =>
      by_cases hc : c = '.'
      · subst hc
        by_cases hrun : (t.takeWhile isDigitCh).isEmpty = true
        · exact ⟨[], by simp, by simp [groupsFromAux, hrun]⟩
        · obtain ⟨parts', hparts', hext⟩ := ih (t.dropWhile isDigitCh)
          refine ⟨t.takeWhile isDigitCh :: parts', ?_, ?_⟩
          · intro d hd
            rcases List.mem_cons.mp hd with h1 | h2
            · subst h1
              refine ⟨by simpa [List.isEmpty_iff] using hrun, ?_⟩
              intro x hx
              exact List.mem_takeWhile_imp hx
            · exact hparts' d h2
          · simp [groupsFromAux, hrun, hext]
      · exact ⟨[], by simp, by simp [groupsFromAux, hc]⟩

theorem gf_complete :
    ∀ (parts : List (List Char)) (fuel : Nat) (tail : List Char),
      (∀ d ∈ parts, isDigitGroup d) →
      (∃ sep c rest, (sep = [] ∨ sep = ['.']) ∧ pyIsSpace c = true ∧ tail = sep ++ c :: rest) →
      ((parts.map (fun x => '.' :: x)).flatten ++ tail).length ≤ fuel →
      groupsFromAux fuel ((parts.map (fun x => '.' :: x)).flatten ++ tail) =
        ((parts.map (fun x => '.' :: x)).flatten, tail) := by
  intro parts
  induction parts with
  | nil =>
    intro fuel tail _ htail hfuel
    obtain ⟨sep, c, rest, hsep, hc, ht⟩ := htail
    subst ht
    cases fuel with
    | zero =>
      exfalso
      rcases hsep with h | h <;> subst h <;> simp at hfuel
    | succ f =>
      rcases hsep with h | h
      · subst h
        simp only [List.map_nil, List.flatten_nil, List.nil_append]
        rw [groupsFromAux, if_neg]
        exact fun h0 => space_ne_dot c hc h0
      · subst h
        simp only [List.map_nil, List.flatten_nil, List.nil_append, List.singleton_append]
        rw [groupsFromAux, if_pos rfl, if_pos]
        rw [List.takeWhile_cons, if_neg (by simp [space_not_digit c hc])]
        rfl
  | cons p parts' ih =>
    intro fuel tail hparts htail hfuel
    have hp : isDigitGroup p := hparts p (List.mem_cons_self _ _)
    have hparts' : ∀ d ∈ parts', isDigitGroup d := fun d hd => hparts d (List.mem_cons_of_mem _ hd)
    have hshape : (((p :: parts').map (fun x => '.' :: x)).flatten ++ tail) =
        '.' :: (p ++ ((parts'.map (fun x => '.' :: x)).flatten ++ tail)) := by simp
    rw [hshape] at hfuel ⊢
    cases fuel with
    | zero => simp at hfuel
    | succ f =>
      obtain ⟨b, l₂, hbl, hb⟩ := spaceTail_head_not_digit parts' tail hparts' htail
      have hsplit := takeWhile_dropWhile_append isDigitCh p l₂ hp.2 hb
      rw [groupsFromAux, if_pos rfl, hbl]
      have htake : (p ++ b :: l₂).takeWhile isDigitCh = p := hsplit.1
      have hdrop : (p ++ b :: l₂).dropWhile isDigitCh = b :: l₂ := hsplit.2
      rw [if_neg (by simp [htake, List.isEmpty_iff, hp.1]), htake, hdrop, ← hbl,
        ih f tail hparts' htail (by simp at hfuel ⊢; omega)]
      simp

theorem sepSpaceTest_space (g : List Char) (c : Char) (rest : List Char)
    (hc : pyIsSpace c = true) : sepSpaceTest g (c :: rest) = g := by
  cases rest with
  | nil =>
    simp only [sepSpaceTest]
    rw [if_neg (space_ne_dot c hc), if_pos hc]
  | cons c2 u =>
    simp only [sepSpaceTest]
    rw [if_neg (space_ne_dot c hc), if_pos hc]

theorem sepSpaceTest_dot_space (g : List Char) (c : Char) (rest : List Char)
    (hc : pyIsSpace c = true) : sepSpaceTest g ('.' :: c :: rest) = g := by
  simp [sepSpaceTest, hc]

theorem esn_complete :
    ∀ (parts : List (List Char)) (sep : List Char) (c : Char) (rest : List Char),
      parts ≠ [] → (∀ d ∈ parts, isDigitGroup d) → (sep = [] ∨ sep = ['.']) →
      pyIsSpace c = true →
      extract_section_number (dottedGroups parts ++ sep ++ c :: rest) = dottedGroups parts := by
  intro parts sep c rest hne hparts hsep hc
  cases parts with
  | nil => exact absurd rfl hne
  | cons p parts' =>
    have hp : isDigitGroup p := hparts p (List.mem_cons_self _ _)
    have hparts' : ∀ d ∈ parts', isDigitGroup d := fun d hd => hparts d (List.mem_cons_of_mem _ hd)
    have htail : ∃ sep' c' rest', (sep' = [] ∨ sep' = ['.']) ∧ pyIsSpace c' = true ∧
        sep ++ c :: rest = sep' ++ c' :: rest' := ⟨sep, c, rest, hsep, hc, rfl⟩
    obtain ⟨b, l₂, hbl, hb⟩ := spaceTail_head_not_digit parts' (sep ++ c :: rest) hparts' htail
    have hshape : dottedGroups (p :: parts') ++ sep ++ c :: rest =
        p ++ ((parts'.map (fun x => '.' :: x)).flatten ++ (sep ++ c :: rest)) := by
      simp [dottedGroups]
    rw [hshape, hbl]
    have hsplit := takeWhile_dropWhile_append isDigitCh p l₂ hp.2 hb
    rw [extract_section_number]
    rw [hsplit.1, hsplit.2, ← hbl]
    rw [if_neg (by simp [List.isEmpty_iff, hp.1])]
    have hlen : ((parts'.map (fun x => '.' :: x)).flatten ++ (sep ++ c :: rest)).length ≤
        (p ++ ((parts'.map (fun x => '.' :: x)).flatten ++ (sep ++ c :: rest))).length := by
      simp
    rw [gf_complete parts' _ _ hparts' htail hlen]
    simp only []
    rcases hsep with h | h
    · subst h
      rw [List.nil_append, sepSpaceTest_space _ c rest hc]
      simp [dottedGroups]
    · subst h
      rw [List.singleton_append, sepSpaceTest_dot_space _ c rest hc]
      simp [dottedGroups]

theorem esn_sound :
    ∀ heading : List Char, extract_section_number heading ≠ [] →
      ∃ parts sep c rest, parts ≠ [] ∧ (∀ d ∈ parts, isDigitGroup d) ∧
        (sep = [] ∨ sep = ['.']) ∧ pyIsSpace c = true ∧
        heading = dottedGroups parts ++ sep ++ c :: rest ∧
        extract_section_number heading = dottedGroups parts := by
  intro heading hne
  by_cases hrun : (heading.takeWhile isDigitCh).isEmpty = true
  · exfalso
    apply hne
    rw [extract_section_number, if_pos hrun]
  · obtain ⟨parts', hparts', hext⟩ := gf_shape heading.length (heading.dropWhile isDigitCh)
    have hsound := gf_sound heading.length (heading.dropWhile isDigitCh)
    set pr := groupsFromAux heading.length (heading.dropWhile isDigitCh) with hpr
    have hheading : heading = heading.takeWhile isDigitCh ++ (pr.1 ++ pr.2) := by
      rw [hsound, List.takeWhile_append_dropWhile]
    have hrun' : heading.takeWhile isDigitCh ≠ [] := by
      simpa [List.isEmpty_iff] using hrun
    have hrundig : ∀ x ∈ heading.takeWhile isDigitCh, isDigitCh x = true :=
      fun x hx => List.mem_takeWhile_imp hx
    have hunfold : extract_section_number heading =
        sepSpaceTest (heading.takeWhile isDigitCh ++ pr.1) pr.2 := by
      rw [extract_section_number, if_neg hrun]
    cases hpr2 : pr.2 with
    | nil =>
      rw [hunfold, hpr2] at hne
      exact absurd rfl hne
    | cons c u =>
      have hval : extract_section_number heading =
          sepSpaceTest (heading.takeWhile isDigitCh ++ pr.1) (c :: u) := by
        rw [hunfold, hpr2]
      by_cases hcdot : c = '.'
      · subst hcdot
        cases u with
        | nil =>
          rw [hval] at hne
          simp [sepSpaceTest] at hne
        | cons c2 u' =>
          by_cases hsp : pyIsSpace c2 = true
          · refine ⟨heading.takeWhile isDigitCh :: parts', ['.'], c2, u',
              List.cons_ne_nil _ _, ?_, Or.inr rfl, hsp, ?_, ?_⟩
            · intro d hd
              rcases List.mem_cons.mp hd with h1 | h2
              · exact h1 ▸ ⟨hrun', hrundig⟩
              · exact hparts' d h2
            · conv_lhs => rw [hheading]
              rw [hext, hpr2]
              simp [dottedGroups]
            · rw [hval, sepSpaceTest_dot_space _ c2 u' hsp, hext]
              simp [dottedGroups]
          · rw [hval] at hne
            simp [sepSpaceTest, hsp] at hne
      · by_cases hsp : pyIsSpace c = true
        · refine ⟨heading.takeWhile isDigitCh :: parts', [], c, u,
            List.cons_ne_nil _ _, ?_, Or.inl rfl, hsp, ?_, ?_⟩
          · intro d hd
            rcases List.mem_cons.mp hd with h1 | h2
            · exact h1 ▸ ⟨hrun', hrundig⟩
            · exact hparts' d h2
          · conv_lhs => rw [hheading]
            rw [hext, hpr2]
            simp [dottedGroups]
          · rw [hval, sepSpaceTest_space _ c u hsp, hext]
            simp [dottedGroups]
        · rw [hval] at hne
          cases u with
          | nil => simp [sepSpaceTest, hcdot, hsp] at hne
          | cons c2 u' => simp [sepSpaceTest, hcdot, hsp] at hne

/-! ### Decimal formatting lemmas -/

theorem digitChar_toNat (d : Nat) (h : d < 10) : (digitChar d).toNat = 48 + d := by
  interval_cases d <;> decide

theorem digitChar_isDigit (d : Nat) (h : d < 10) : isDigitCh (digitChar d) = true := by
  interval_cases d <;> decide

theorem digitChar_ne_zero (d : Nat) (h1 : 0 < d) (h2 : d < 10) : digitChar d ≠ '0' := by
  interval_cases d <;> decide

theorem natDigitsAux_zero (fuel : Nat) : natDigitsAux fuel 0 = [] := by
  cases fuel <;> simp [natDigitsAux]

theorem natDigitsAux_foldl :
    ∀ (fuel n a : Nat), n ≤ fuel →
      List.foldl (fun x c => x * 10 + (c.toNat - 48)) a (natDigitsAux fuel n) =
        a * 10 ^ (natDigitsAux fuel n).length + n := by
  intro fuel
  induction fuel with
  | zero =>
    intro n a h
    interval_cases n
    simp [natDigitsAux]
  | succ f ih =>
    intro n a h
    by_cases hn : n = 0
    · subst hn; simp [natDigitsAux]
    · simp only [natDigitsAux, if_neg hn]
      rw [List.foldl_append]
      have hle : n / 10 ≤ f := by
        have := Nat.div_lt_self (Nat.pos_of_ne_zero hn) (by omega : 1 < 10)
        omega
      rw [ih (n / 10) a hle]
      simp only [List.foldl_cons, List.foldl_nil]
      rw [digitChar_toNat (n % 10) (Nat.mod_lt n (by omega))]
      rw [List.length_append, List.length_cons, List.length_nil]
      have hsub : 48 + n % 10 - 48 = n % 10 := by omega
      rw [hsub]
      calc (a * 10 ^ (natDigitsAux f (n / 10)).length + n / 10) * 10 + n % 10
          = a * (10 ^ (natDigitsAux f (n / 10)).length * 10) + (n / 10 * 10 + n % 10) := by ring
        _ = a * 10 ^ ((natDigitsAux f (n / 10)).length + (0 + 1)) + n := by
            rw [Nat.div_add_mod', pow_succ]

theorem parseDec_natDigits (n : Nat) : parseDec (natDigits n) = n := by
  by_cases hn : n = 0
  · subst hn; decide
  · rw [natDigits, if_neg hn, parseDec, natDigitsAux_foldl n n 0 (Nat.le_refl n)]
    simp

theorem natDigits_inj (n m : Nat) (h : natDigits n = natDigits m) : n = m := by
  have h1 := parseDec_natDigits n
  rw [h, parseDec_natDigits] at h1
  exact h1.symm

theorem natDigitsAux_digits :
    ∀ (fuel n : Nat) (c : Char), c ∈ natDigitsAux fuel n → isDigitCh c = true := by
  intro fuel
  induction fuel with
  | zero => intro n c hc; simp [natDigitsAux] at hc
  | succ f ih =>
    intro n c hc
    by_cases hn : n = 0
    · subst hn; simp [natDigitsAux] at hc
    · simp only [natDigitsAux, if_neg hn] at hc
      rcases List.mem_append.mp hc with h1 | h2
      · exact ih (n / 10) c h1
      · have : c = digitChar (n % 10) := by simpa using h2
        exact this ▸ digitChar_isDigit (n % 10) (Nat.mod_lt n (by omega))

theorem natDigits_digits (n : Nat) (c : Char) (h : c ∈ natDigits n) : isDigitCh c = true := by
  by_cases hn : n = 0
  · subst hn
    have hc : c = '0' := by simpa [natDigits] using h
    subst hc
    decide
  · rw [natDigits, if_neg hn] at h
    exact natDigitsAux_digits n n c h

theorem digit_ne_dash (c : Char) (h : isDigitCh c = true) : c ≠ '-' := by
  intro h0
  rw [h0] at h
  exact absurd h (by decide)

theorem natDigitsAux_ne_nil (fuel n : Nat) (h1 : 0 < n) (h2 : n ≤ fuel) :
    natDigitsAux fuel n ≠ [] := by
  cases fuel with
  | zero => omega
  | succ f =>
    simp only [natDigitsAux, if_neg (by omega : ¬n = 0)]
    simp

theorem natDigitsAux_head_ne_zero :
    ∀ (fuel n : Nat), 0 < n → n ≤ fuel → (natDigitsAux fuel n).head? ≠ some '0' := by
  intro fuel
  induction fuel with
  | zero => intro n h1 h2; omega
  | succ f ih =>
    intro n h1 h2
    simp only [natDigitsAux, if_neg (by omega : ¬n = 0)]
    by_cases hq : n / 10 = 0
    · rw [hq, natDigitsAux_zero, List.nil_append, List.head?_cons]
      intro hcontra
      have hd : digitChar (n % 10) = '0' := by simpa using hcontra
      have hlt : n < 10 := by omega
      have hmod : n % 10 = n := Nat.mod_eq_of_lt hlt
      exact digitChar_ne_zero (n % 10) (by omega) (by omega) hd
    · have hlt : n / 10 ≤ f := by
        have := Nat.div_lt_self h1 (by omega : 1 < 10)
        omega
      have hne := natDigitsAux_ne_nil f (n / 10) (by omega) hlt
      rw [List.head?_append_of_ne_nil _ hne]
      exact ih (n / 10) (by omega) hlt

theorem natDigits_ne_nil (n : Nat) : natDigits n ≠ [] := by
  by_cases hn : n = 0
  · subst hn; decide
  · rw [natDigits, if_neg hn]
    exact natDigitsAux_ne_nil n n (by omega) (Nat.le_refl n)

theorem fmt02_inj (n m : Nat) (h : fmt02 n = fmt02 m) : n = m := by
  unfold fmt02 at h
  by_cases h1 : (natDigits n).length < 2 <;> by_cases h2 : (natDigits m).length < 2
  · rw [if_pos h1, if_pos h2] at h
    injection h with _ h3
    exact natDigits_inj n m h3
  · rw [if_pos h1, if_neg h2] at h
    exfalso
    have hm0 : m ≠ 0 := by
      intro h0
      subst h0
      exact h2 (by decide)
    have hhead : (natDigits m).head? = some '0' := by rw [← h]; rfl
    rw [natDigits, if_neg hm0] at hhead
    exact natDigitsAux_head_ne_zero m m (Nat.pos_of_ne_zero hm0) (Nat.le_refl m) hhead
  · rw [if_neg h1, if_pos h2] at h
    exfalso
    have hn0 : n ≠ 0 := by
      intro h0
      subst h0
      exact h1 (by decide)
    have hhead : (natDigits n).head? = some '0' := by rw [h]; rfl
    rw [natDigits, if_neg hn0] at hhead
    exact natDigitsAux_head_ne_zero n n (Nat.pos_of_ne_zero hn0) (Nat.le_refl n) hhead
  · rw [if_neg h1, if_neg h2] at h
    exact natDigits_inj n m h

theorem fmt02_digits (n : Nat) (c : Char) (h : c ∈ fmt02 n) : isDigitCh c = true := by
  unfold fmt02 at h
  split at h
  · rcases List.mem_cons.mp h with h1 | h2
    · subst h1; decide
    · exact natDigits_digits n c h2
  · exact natDigits_digits n c h

theorem noDash_split :
    ∀ (xs ys us vs : List Char), (∀ c ∈ xs, c ≠ '-') → (∀ c ∈ ys, c ≠ '-') →
      xs ++ '-' :: us = ys ++ '-' :: vs → xs = ys := by
  intro xs
  induction xs with
  | nil =>
    intro ys us vs _ hys h
    cases ys with
    | nil => rfl
    | cons y ys' =>
      exfalso
      have hy : y = '-' := by
        rw [List.nil_append, List.cons_append] at h
        injection h with h1 _
        exact h1.symm
      exact hys y (by simp) hy
  | cons x xs' ih =>
    intro ys us vs hxs hys h
    cases ys with
    | nil =>
      exfalso
      have hx : x = '-' := by
        rw [List.nil_append, List.cons_append] at h
        injection h
      exact hxs x (by simp) hx
    | cons y ys' =>
      rw [List.cons_append, List.cons_append] at h
      injection h with h1 h2
      rw [ih ys' us vs (fun c hc => hxs c (by simp [hc])) (fun c hc => hys c (by simp [hc])) h2,
        h1]

theorem buildFiles_cons (mk : Nat → List Char → List Char) (lines : List (List Char))
    (j s : Nat) (h : List Char) (rest : List (Nat × List Char)) :
    buildFiles mk lines j ((s, h) :: rest) =
      (mk (j + 1) h, ((lines.drop (s - 1)).take ((match rest with
        | [] => lines.length + 1
        | (s2, _) :: _ => s2) - s)).flatten) :: buildFiles mk lines (j + 1) rest := rfl

theorem buildFiles_fst_mem (mk : Nat → List Char → List Char) (lines : List (List Char)) :
    ∀ (ms : List (Nat × List Char)) (j : Nat) (x : List Char),
      x ∈ (buildFiles mk lines j ms).map Prod.fst → ∃ k h, j < k ∧ x = mk k h := by
  intro ms
  induction ms with
  | nil => intro j x hx; simp [buildFiles] at hx
  | cons p rest ih =>
    intro j x hx
    obtain ⟨s, h⟩ := p
    rw [buildFiles_cons, List.map_cons] at hx
    rcases List.mem_cons.mp hx with h1 | h2
    · exact ⟨j + 1, h, by omega, h1⟩
    · obtain ⟨k, h', hk, hx'⟩ := ih (j + 1) x h2
      exact ⟨k, h', by omega, hx'⟩

theorem buildFiles_fst_nodup (mk : Nat → List Char → List Char) (lines : List (List Char))
    (hmk : ∀ k k' h h', k ≠ k' → mk k h ≠ mk k' h') :
    ∀ (ms : List (Nat × List Char)) (j : Nat),
      ((buildFiles mk lines j ms).map Prod.fst).Nodup := by
  intro ms
  induction ms with
  | nil => intro j; simp [buildFiles]
  | cons p rest ih =>
    intro j
    obtain ⟨s, h⟩ := p
    rw [buildFiles_cons, List.map_cons, List.nodup_cons]
    constructor
    · intro hmem
      obtain ⟨k, h', hk, hx⟩ := buildFiles_fst_mem mk lines rest (j + 1) _ hmem
      exact hmk (j + 1) k h h' (by omega) hx
    · exact ih (j + 1)

theorem chapterMk_inj (outDir : List Char) :
    ∀ (k k' : Nat) (h h' : List Char), k ≠ k' →
      pathJoin outDir (chapterName k h) ≠ pathJoin outDir (chapterName k' h') := by
  intro k k' h h' hkk heq
  have h2 : chapterName k h = chapterName k' h' := by
    unfold pathJoin at heq
    have h3 := List.append_cancel_left heq
    injection h3
  unfold chapterName at h2
  have h4 := noDash_split (fmt02 k) (fmt02 k') _ _
    (fun c hc => digit_ne_dash c (fmt02_digits k c hc))
    (fun c hc => digit_ne_dash c (fmt02_digits k' c hc)) h2
  exact hkk (fmt02_inj k k' h4)

/-! ### Claim theorems (first batch) -/

/-- C1: splitting the source `"## 1. Intro\nA\n## 2. Setup\nB\nC\n"` at depth 2
into `out/` yields exactly the two files `out/01-intro.md` with content
`"## 1. Intro\nA\n"` and `out/02-setup.md` with content `"## 2. Setup\nB\nC\n"`. -/
theorem claim_C1 :
    runChapters "out".toList "## 1. Intro\nA\n## 2. Setup\nB\nC\n".toList =
      Except.ok [("out/01-intro.md".toList, "## 1. Intro\nA\n".toList),
                 ("out/02-setup.md".toList, "## 2. Setup\nB\nC\n".toList)] := by
  rfl

/-- C6: the slug deriver strips the mode's numeric prefix before lowercasing
and hyphenating: chapter `slug("3. Getting Started") = "getting-started"`,
section `slug("4.1 Home Screen") = "home-screen"` and
`slug("4.2.3. Deep Dive") = "deep-dive"` (the section mode applying its two
sequential strip passes). -/
theorem claim_C6 :
    heading_to_slug "3. Getting Started".toList = "getting-started".toList ∧
    heading_to_slug_sec "4.1 Home Screen".toList = "home-screen".toList ∧
    heading_to_slug_sec "4.2.3. Deep Dive".toList = "deep-dive".toList := by
  refine ⟨by decide, by decide, by decide⟩

/-- C5: on a document with zero heading lines of the configured depth, each
splitter stops with its diagnostic (`sys.exit`, a non-zero status) and the
run produces no output files (the model returns `Except.error` before any
file pair is built; in the scripts the `mkdir` is likewise sequenced after
this check). -/
theorem claim_C5 :
    ∀ (text outDir parent fname : List Char),
      ((∀ l ∈ splitlines text, matchHeading 2 l = none) →
        runChapters outDir text = Except.error "No ## chapters found.".toList) ∧
      ((∀ l ∈ splitlines text, matchHeading 3 l = none) →
        runSections parent fname text = Except.error "No ### sections found.".toList) := by
  intro text outDir parent fname
  constructor
  · intro h
    have hs : scanFrom 2 1 (splitlines text) = [] := scanFrom_eq_nil 2 (splitlines text) 1 h
    simp [runChapters, hs]
  · intro h
    have hs : scanFrom 3 1 (splitlines text) = [] := scanFrom_eq_nil 3 (splitlines text) 1 h
    simp [runSections, hs]

/-- C3: the scanner's matcher at depth `d` accepts a line iff it begins with
exactly `d` `#` markers, a single separator space, and at least one character
of heading text (the regex capture); a line accepted at depth `d` is rejected
at every other depth `d'` (in particular depth-2 and depth-4 lines under
depth-3 scanning); and the recorded heading text is the remainder of the line
after the marker and separator, with surrounding whitespace trimmed (the
scanner stores `pyStrip` of the capture, which equals `pyStrip` of the full
remainder). -/
theorem claim_C3 :
    ∀ (d d' : Nat) (line : List Char),
      ((matchHeading d line).isSome = true ↔ specHeading d line) ∧
      (d ≠ d' → (matchHeading d line).isSome = true → matchHeading d' line = none) ∧
      (∀ g, matchHeading d line = some g → pyStrip g = pyStrip (line.drop (d + 1))) := by
  intro d d' line
  refine ⟨matchHeading_isSome_iff d line, ?_, ?_⟩
  · intro hne hsome
    by_contra hnone
    have hsome' : (matchHeading d' line).isSome = true := by
      cases hm : matchHeading d' line with
      | none => exact absurd hm hnone
      | some g => simp
    exact hne (specHeading_depth_unique d d' line
      ((matchHeading_isSome_iff d line).mp hsome)
      ((matchHeading_isSome_iff d' line).mp hsome'))
  · intro g hg
    obtain ⟨b, hline, hne, hnin, hb⟩ := (matchHeading_eq_some_iff d line g).mp hg
    have hrest : line.drop (d + 1) = g ++ b := drop_marker d (g ++ b) line hline
    rw [hrest]
    rcases hb with hb | hb
    · subst hb; rw [List.append_nil]
    · subst hb
      exact (pyStripWith_concat_pos pyIsSpace '\n' (by decide) g).symm

/-- Witness for C3 at depth 3 on the line `"### Sec\n"`: it satisfies the
spec-side grammar, is rejected by the depth-2 matcher, and its recorded text
equals the trimmed remainder. -/
theorem claim_C3_witness :
    specHeading 3 "### Sec\n".toList ∧ matchHeading 2 "### Sec\n".toList = none ∧
      pyStrip "Sec".toList = pyStrip ("### Sec\n".toList.drop 4) :=
  ⟨((claim_C3 3 2 "### Sec\n".toList).1).mp (by decide),
   (claim_C3 3 2 "### Sec\n".toList).2.1 (by decide) (by decide),
   (claim_C3 3 2 "### Sec\n".toList).2.2 "Sec".toList (by decide)⟩

/-- C8: the section-number extractor returns the leading dotted-numeric
prefix exactly when the heading begins with one or more dot-separated integer
groups, an optional trailing dot, and a whitespace character; the returned
string is the dotted prefix without the trailing separator; otherwise it
returns the no-match value (empty string, not an error).  Includes the spec's
concrete cases. -/
theorem claim_C8 :
    ∀ heading : List Char,
      (extract_section_number heading ≠ [] →
        ∃ parts sep c rest, parts ≠ [] ∧ (∀ d ∈ parts, isDigitGroup d) ∧
          (sep = [] ∨ sep = ['.']) ∧ pyIsSpace c = true ∧
          heading = dottedGroups parts ++ sep ++ c :: rest ∧
          extract_section_number heading = dottedGroups parts) ∧
      (∀ parts sep c rest, parts ≠ [] → (∀ d ∈ parts, isDigitGroup d) →
        (sep = [] ∨ sep = ['.']) → pyIsSpace c = true →
        heading = dottedGroups parts ++ sep ++ c :: rest →
        extract_section_number heading = dottedGroups parts) ∧
      extract_section_number "4.1 Home Screen".toList = "4.1".toList ∧
      extract_section_number "Home Screen".toList = [] ∧
      extract_section_number "Foo 4.1".toList = [] := by
  intro heading
  refine ⟨esn_sound heading, ?_, by decide, by decide, by decide⟩
  intro parts sep c rest h1 h2 h3 h4 h5
  rw [h5]
  exact esn_complete parts sep c rest h1 h2 h3 h4

/-- Witness for C8 on `"4.2.3. Bar"`: the extractor returns the dotted prefix
`4.2.3` without the trailing dot. -/
theorem claim_C8_witness :
    extract_section_number "4.2.3. Bar".toList =
      dottedGroups ["4".toList, "2".toList, "3".toList] :=
  (claim_C8 "4.2.3. Bar".toList).2.1 ["4".toList, "2".toList, "3".toList] ['.'] ' ' "Bar".toList
    (by decide) (by simp only [isDigitGroup]; decide) (by decide) (by decide) (by decide)

/-- Witness for C5 on the headingless document `"plain text\nno headings\n"`. -/
theorem claim_C5_witness :
    runChapters "out".toList "plain text\nno headings\n".toList =
        Except.error "No ## chapters found.".toList ∧
      runSections "p".toList "d.md".toList "plain text\nno headings\n".toList =
        Except.error "No ### sections found.".toList :=
  ⟨(claim_C5 "plain text\nno headings\n".toList "out".toList "p".toList "d.md".toList).1
      (by decide),
   (claim_C5 "plain text\nno headings\n".toList "out".toList "p".toList "d.md".toList).2
      (by decide)⟩

/-- C4: on every document with at least one matching heading line, the number
of produced files equals the number of matching heading lines, for both the
chapter splitter (depth 2) and the section splitter (depth 3). -/
theorem claim_C4 :
    ∀ (text outDir parent fname : List Char),
      ((splitlines text).countP (fun l => (matchHeading 2 l).isSome) ≠ 0 →
        ∃ files, runChapters outDir text = Except.ok files ∧
          files.length = (splitlines text).countP (fun l => (matchHeading 2 l).isSome)) ∧
      ((splitlines text).countP (fun l => (matchHeading 3 l).isSome) ≠ 0 →
        ∃ files, runSections parent fname text = Except.ok files ∧
          files.length = (splitlines text).countP (fun l => (matchHeading 3 l).isSome)) := by
  intro text outDir parent fname
  constructor
  · intro h
    have hlen := scanFrom_length 2 (splitlines text) 1
    have hne : scanFrom 2 1 (splitlines text) ≠ [] := by
      intro h0
      rw [h0] at hlen
      exact h (by simpa using hlen.symm)
    refine ⟨buildFiles (fun i h => pathJoin outDir (chapterName i h)) (splitlines text) 0
        (scanFrom 2 1 (splitlines text)), ?_, ?_⟩
    · simp only [runChapters]
      rw [if_neg (by simpa [List.isEmpty_iff] using hne)]
    · rw [buildFiles_length, hlen]
  · intro h
    have hlen := scanFrom_length 3 (splitlines text) 1
    have hne : scanFrom 3 1 (splitlines text) ≠ [] := by
      intro h0
      rw [h0] at hlen
      exact h (by simpa using hlen.symm)
    refine ⟨buildFiles (fun i h => pathJoin (pathJoin parent (pathStem fname)) (sectionName i h))
        (splitlines text) 0 (scanFrom 3 1 (splitlines text)), ?_, ?_⟩
    · simp only [runSections]
      rw [if_neg (by simpa [List.isEmpty_iff] using hne)]
    · rw [buildFiles_length, hlen]

/-! ### Round-trip machinery -/

theorem splitlinesAux_flatten :
    ∀ (acc s : List Char), (splitlinesAux acc s).flatten = acc.reverse ++ s := by
  intro acc s
  induction acc, s using splitlinesAux.induct with
  | case1 acc h => simp_all [splitlinesAux, List.isEmpty_iff]
  | case2 acc h => simp_all [splitlinesAux, List.isEmpty_iff]
  | case3 acc rest ih => simp [splitlinesAux, ih]
  | case4 acc c rest hne h ih => simp_all [splitlinesAux]
  | case5 acc c rest hne h ih => simp_all [splitlinesAux]

/-- `splitlines(keepends=True)` loses nothing: re-concatenating the lines
reproduces the document byte for byte. -/
theorem splitlines_flatten (text : List Char) : (splitlines text).flatten = text := by
  simpa using splitlinesAux_flatten [] text

theorem scanFrom_le (d : Nat) :
    ∀ (ls : List (List Char)) (i0 : Nat) (p : Nat × List Char),
      p ∈ scanFrom d i0 ls → i0 ≤ p.1 := by
  intro ls
  induction ls with
  | nil => intro i0 p hp; simp [scanFrom] at hp
  | cons l ls ih =>
    intro i0 p hp
    cases hm : matchHeading d l with
    | none =>
      rw [scanFrom, hm] at hp
      exact Nat.le_of_succ_le (ih (i0 + 1) p hp)
    | some g =>
      rw [scanFrom, hm] at hp
      rcases List.mem_cons.mp hp with h1 | h2
      · rw [h1]
      · exact Nat.le_of_succ_le (ih (i0 + 1) p h2)

theorem scanFrom_chain (d : Nat) :
    ∀ (ls : List (List Char)) (i0 : Nat),
      List.Chain' (fun a b => a.1 < b.1) (scanFrom d i0 ls) := by
  intro ls
  induction ls with
  | nil => intro i0; simp [scanFrom]
  | cons l ls ih =>
    intro i0
    cases hm : matchHeading d l with
    | none => rw [scanFrom, hm]; exact ih (i0 + 1)
    | some g =>
      rw [scanFrom, hm]
      refine List.chain'_cons'.mpr ⟨?_, ih (i0 + 1)⟩
      intro y hy
      have hmem : y ∈ scanFrom d (i0 + 1) ls := by
        cases hl : scanFrom d (i0 + 1) ls with
        | nil => rw [hl] at hy; simp at hy
        | cons a t =>
          rw [hl] at hy
          simp only [List.head?_cons, Option.mem_def, Option.some_inj] at hy
          rw [← hy]
          exact List.mem_cons_self a t
      exact Nat.lt_of_succ_le (scanFrom_le d ls (i0 + 1) y hmem)

theorem buildFiles_snd_flatten (mk : Nat → List Char → List Char) (lines : List (List Char)) :
    ∀ (rest : List (Nat × List Char)) (s : Nat) (h : List Char) (i : Nat),
      List.Chain' (fun a b => a.1 < b.1) ((s, h) :: rest) →
      (∀ p ∈ (s, h) :: rest, 1 ≤ p.1) →
      ((buildFiles mk lines i ((s, h) :: rest)).map Prod.snd).flatten =
        (lines.drop (s - 1)).flatten := by
  intro rest
  induction rest with
  | nil =>
    intro s h i _ hpos
    have hs : 1 ≤ s := hpos (s, h) (List.mem_cons_self _ _)
    have hlen : (lines.drop (s - 1)).length ≤ lines.length + 1 - s := by
      rw [List.length_drop]; omega
    simp only [buildFiles, List.map_cons, List.map_nil, List.flatten_cons, List.flatten_nil,
      List.append_nil, List.take_of_length_le hlen]
  | cons q rest ih =>
    intro s h i hchain hpos
    obtain ⟨s2, h2⟩ := q
    have hlt : s < s2 := (List.chain'_cons.mp hchain).1
    have hs : 1 ≤ s := hpos (s, h) (List.mem_cons_self _ _)
    have htail : ∀ p ∈ (s2, h2) :: rest, 1 ≤ p.1 := fun p hp => hpos p (List.mem_cons_of_mem _ hp)
    have hdrop : lines.drop (s2 - 1) = (lines.drop (s - 1)).drop (s2 - s) := by
      rw [List.drop_drop]; congr 1; omega
    have step : buildFiles mk lines i ((s, h) :: (s2, h2) :: rest) =
        (mk (i + 1) h, ((lines.drop (s - 1)).take (s2 - s)).flatten) ::
          buildFiles mk lines (i + 1) ((s2, h2) :: rest) := rfl
    rw [step, List.map_cons, List.flatten_cons,
      ih s2 h2 (i + 1) (List.chain'_cons.mp hchain).2 htail, hdrop,
      ← List.flatten_append, List.take_append_drop]

theorem buildFiles_getElem? (mk : Nat → List Char → List Char) (lines : List (List Char)) :
    ∀ (ms : List (Nat × List Char)) (j i : Nat),
      (buildFiles mk lines j ms)[i]? = (ms[i]?).map (fun p =>
        (mk (j + i + 1) p.2,
         ((lines.drop (p.1 - 1)).take (chunkEnd lines ms i - p.1)).flatten)) := by
  intro ms
  induction ms with
  | nil => intro j i; simp [buildFiles]
  | cons q rest ih =>
    intro j i
    obtain ⟨s, h⟩ := q
    cases i with
    | zero =>
      cases rest with
      | nil => simp [buildFiles, chunkEnd]
      | cons q2 rest2 => simp [buildFiles, chunkEnd]
    | succ i' =>
      have hce : chunkEnd lines ((s, h) :: rest) (i' + 1) = chunkEnd lines rest i' := by
        simp [chunkEnd, List.getElem?_cons_succ]
      have hj : j + 1 + i' + 1 = j + (i' + 1) + 1 := by omega
      calc (buildFiles mk lines j ((s, h) :: rest))[i' + 1]?
      _ = (buildFiles mk lines (j + 1) rest)[i']? := by
        simp only [buildFiles]
        exact List.getElem?_cons_succ
      _ = _ := by
        rw [ih (j + 1) i', hce, hj]
        simp [List.getElem?_cons_succ]

/-- C2: for every document with at least one matching heading, the produced
chunks concatenate (in document order) to exactly the source text from the
first matching heading line through end-of-document; together with the
dropped prefix of earlier lines they reproduce the document byte for byte;
and each chunk is the exact original text of its source line span.  Stated
for the chapter splitter (depth 2) and the section splitter (depth 3). -/
theorem claim_C2 :
    ∀ (text outDir parent fname : List Char),
      (∀ s h rest, scanFrom 2 1 (splitlines text) = (s, h) :: rest →
        ∃ files, runChapters outDir text = Except.ok files ∧
          (files.map Prod.snd).flatten = ((splitlines text).drop (s - 1)).flatten ∧
          ((splitlines text).take (s - 1)).flatten ++ (files.map Prod.snd).flatten = text ∧
          ∀ i, (files[i]?).map Prod.snd = ((scanFrom 2 1 (splitlines text))[i]?).map (fun p =>
            (((splitlines text).drop (p.1 - 1)).take
              (chunkEnd (splitlines text) (scanFrom 2 1 (splitlines text)) i - p.1)).flatten)) ∧
      (∀ s h rest, scanFrom 3 1 (splitlines text) = (s, h) :: rest →
        ∃ files, runSections parent fname text = Except.ok files ∧
          (files.map Prod.snd).flatten = ((splitlines text).drop (s - 1)).flatten ∧
          ((splitlines text).take (s - 1)).flatten ++ (files.map Prod.snd).flatten = text ∧
          ∀ i, (files[i]?).map Prod.snd = ((scanFrom 3 1 (splitlines text))[i]?).map (fun p =>
            (((splitlines text).drop (p.1 - 1)).take
              (chunkEnd (splitlines text) (scanFrom 3 1 (splitlines text)) i - p.1)).flatten)) := by
  intro text outDir parent fname
  constructor
  · intro s h rest hscan
    have hne : scanFrom 2 1 (splitlines text) ≠ [] := by rw [hscan]; exact List.cons_ne_nil _ _
    have hchain := scanFrom_chain 2 (splitlines text) 1
    have hpos : ∀ p ∈ scanFrom 2 1 (splitlines text), 1 ≤ p.1 :=
      fun p hp => scanFrom_le 2 (splitlines text) 1 p hp
    rw [hscan] at hchain hpos
    have hconcat := buildFiles_snd_flatten
      (fun i h => pathJoin outDir (chapterName i h)) (splitlines text) rest s h 0 hchain hpos
    refine ⟨buildFiles (fun i h => pathJoin outDir (chapterName i h)) (splitlines text) 0
        (scanFrom 2 1 (splitlines text)), ?_, ?_, ?_, ?_⟩
    · simp only [runChapters]
      rw [if_neg (by simpa [List.isEmpty_iff] using hne)]
    · rw [hscan]; exact hconcat
    · rw [hscan, hconcat, ← List.flatten_append, List.take_append_drop, splitlines_flatten]
    · intro i
      rw [buildFiles_getElem?]
      cases (scanFrom 2 1 (splitlines text))[i]? with
      | none => simp
      | some p => simp
  · intro s h rest hscan
    have hne : scanFrom 3 1 (splitlines text) ≠ [] := by rw [hscan]; exact List.cons_ne_nil _ _
    have hchain := scanFrom_chain 3 (splitlines text) 1
    have hpos : ∀ p ∈ scanFrom 3 1 (splitlines text), 1 ≤ p.1 :=
      fun p hp => scanFrom_le 3 (splitlines text) 1 p hp
    rw [hscan] at hchain hpos
    have hconcat := buildFiles_snd_flatten
      (fun i h => pathJoin (pathJoin parent (pathStem fname)) (sectionName i h))
      (splitlines text) rest s h 0 hchain hpos
    refine ⟨buildFiles
        (fun i h => pathJoin (pathJoin parent (pathStem fname)) (sectionName i h))
        (splitlines text) 0 (scanFrom 3 1 (splitlines text)), ?_, ?_, ?_, ?_⟩
    · simp only [runSections]
      rw [if_neg (by simpa [List.isEmpty_iff] using hne)]
    · rw [hscan]; exact hconcat
    · rw [hscan, hconcat, ← List.flatten_append, List.take_append_drop, splitlines_flatten]
    · intro i
      rw [buildFiles_getElem?]
      cases (scanFrom 3 1 (splitlines text))[i]? with
      | none => simp
      | some p => simp

/-- C7: the slug deriver is a total function on headings: for every input it
returns a non-empty slug, the empty heading yields the mode's default token
(`"chapter"` / `"section"`), and every output either matches
`^[a-z0-9]+(-[a-z0-9]+)*$` or is exactly the default token.  (Determinism is
immediate: `heading_to_slug` is a pure function of its argument.) -/
theorem claim_C7 :
    ∀ h : List Char,
      (heading_to_slug h ≠ [] ∧
        (slugShape (heading_to_slug h) = true ∨ heading_to_slug h = "chapter".toList)) ∧
      (heading_to_slug_sec h ≠ [] ∧
        (slugShape (heading_to_slug_sec h) = true ∨ heading_to_slug_sec h = "section".toList)) ∧
      heading_to_slug [] = "chapter".toList ∧ heading_to_slug_sec [] = "section".toList := by
  intro h
  refine ⟨⟨?_, ?_⟩, ⟨?_, ?_⟩, by decide, by decide⟩
  · simp only [heading_to_slug]
    split
    · decide
    · next hfalse => simpa [List.isEmpty_iff] using hfalse
  · simp only [heading_to_slug]
    split
    · right; rfl
    · next hfalse =>
      left
      rcases slug_stripped_shape ((pyStrip (stripNumDot h)).map pyToLower) with h0 | h1
      · exact absurd h0 (by simpa [List.isEmpty_iff] using hfalse)
      · exact h1
  · simp only [heading_to_slug_sec]
    split
    · decide
    · next hfalse => simpa [List.isEmpty_iff] using hfalse
  · simp only [heading_to_slug_sec]
    split
    · right; rfl
    · next hfalse =>
      left
      rcases slug_stripped_shape
          ((pyStrip (stripNum (pyStrip (stripNumNum h)))).map pyToLower) with h0 | h1
      · exact absurd h0 (by simpa [List.isEmpty_iff] using hfalse)
      · exact h1

/-- Witness for C7 at the concrete heading `"7. Async I/O!"`. -/
theorem claim_C7_witness :
    heading_to_slug "7. Async I/O!".toList ≠ [] ∧
      (slugShape (heading_to_slug "7. Async I/O!".toList) = true ∨
        heading_to_slug "7. Async I/O!".toList = "chapter".toList) :=
  (claim_C7 "7. Async I/O!".toList).1

/-- Witness for C2 on `"x\n## A\nB\n### C\nD\n"`: the depth-2 scan finds the
heading at line 2 and the depth-3 scan the one at line 4. -/
theorem claim_C2_witness :
    (∃ files, runChapters "out".toList "x\n## A\nB\n### C\nD\n".toList = Except.ok files ∧
      (files.map Prod.snd).flatten =
        ((splitlines "x\n## A\nB\n### C\nD\n".toList).drop (2 - 1)).flatten ∧
      ((splitlines "x\n## A\nB\n### C\nD\n".toList).take (2 - 1)).flatten ++
          (files.map Prod.snd).flatten = "x\n## A\nB\n### C\nD\n".toList ∧
      ∀ i, (files[i]?).map Prod.snd =
        ((scanFrom 2 1 (splitlines "x\n## A\nB\n### C\nD\n".toList))[i]?).map (fun p =>
          (((splitlines "x\n## A\nB\n### C\nD\n".toList).drop (p.1 - 1)).take
            (chunkEnd (splitlines "x\n## A\nB\n### C\nD\n".toList)
              (scanFrom 2 1 (splitlines "x\n## A\nB\n### C\nD\n".toList)) i - p.1)).flatten)) ∧
    (∃ files, runSections "p".toList "d.md".toList "x\n## A\nB\n### C\nD\n".toList =
        Except.ok files ∧
      (files.map Prod.snd).flatten =
        ((splitlines "x\n## A\nB\n### C\nD\n".toList).drop (4 - 1)).flatten ∧
      ((splitlines "x\n## A\nB\n### C\nD\n".toList).take (4 - 1)).flatten ++
          (files.map Prod.snd).flatten = "x\n## A\nB\n### C\nD\n".toList ∧
      ∀ i, (files[i]?).map Prod.snd =
        ((scanFrom 3 1 (splitlines "x\n## A\nB\n### C\nD\n".toList))[i]?).map (fun p =>
          (((splitlines "x\n## A\nB\n### C\nD\n".toList).drop (p.1 - 1)).take
            (chunkEnd (splitlines "x\n## A\nB\n### C\nD\n".toList)
              (scanFrom 3 1 (splitlines "x\n## A\nB\n### C\nD\n".toList)) i - p.1)).flatten)) :=
  ⟨(claim_C2 "x\n## A\nB\n### C\nD\n".toList "out".toList "p".toList "d.md".toList).1
      2 "A".toList [] (by decide),
   (claim_C2 "x\n## A\nB\n### C\nD\n".toList "out".toList "p".toList "d.md".toList).2
      4 "C".toList [] (by decide)⟩

/-- Witness for C4 on `"## A\n### B\n"`, which has one depth-2 and one
depth-3 heading line. -/
theorem claim_C4_witness :
    (∃ files, runChapters "out".toList "## A\n### B\n".toList = Except.ok files ∧
      files.length = (splitlines "## A\n### B\n".toList).countP
        (fun l => (matchHeading 2 l).isSome)) ∧
    (∃ files, runSections "p".toList "d.md".toList "## A\n### B\n".toList = Except.ok files ∧
      files.length = (splitlines "## A\n### B\n".toList).countP
        (fun l => (matchHeading 3 l).isSome)) :=
  ⟨(claim_C4 "## A\n### B\n".toList "out".toList "p".toList "d.md".toList).1 (by decide),
   (claim_C4 "## A\n### B\n".toList "out".toList "p".toList "d.md".toList).2 (by decide)⟩

/-- C9: the section splitter's output directory is always the source file's
parent directory joined with the source's file name without extension, and
the `i`-th chunk's destination is `{section_number}-{slug}.md` when a section
number was extracted from its heading, else the sequential fallback
`{two_digit_1_based_index}-{slug}.md`. -/
theorem claim_C9 :
    ∀ (parent fname text : List Char),
      scanFrom 3 1 (splitlines text) ≠ [] →
      ∃ files, runSections parent fname text = Except.ok files ∧
        files.length = (scanFrom 3 1 (splitlines text)).length ∧
        ∀ i, (files[i]?).map Prod.fst =
          ((scanFrom 3 1 (splitlines text))[i]?).map (fun p =>
            pathJoin (pathJoin parent (pathStem fname))
              (if (extract_section_number p.2).isEmpty = true then
                fmt02 (i + 1) ++ '-' :: (heading_to_slug_sec p.2 ++ ".md".toList)
               else
                extract_section_number p.2 ++ '-' :: (heading_to_slug_sec p.2 ++ ".md".toList))) := by
  intro parent fname text hne
  refine ⟨buildFiles
      (fun i h => pathJoin (pathJoin parent (pathStem fname)) (sectionName i h))
      (splitlines text) 0 (scanFrom 3 1 (splitlines text)), ?_, ?_, ?_⟩
  · simp only [runSections]
    rw [if_neg (by simpa [List.isEmpty_iff] using hne)]
  · rw [buildFiles_length]
  · intro i
    rw [buildFiles_getElem?]
    cases (scanFrom 3 1 (splitlines text))[i]? with
    | none => simp
    | some p => simp [sectionName]

/-- Witness for C9 on `"### 4.1 Foo\n### Extra\n"` split from source
`specs/doc.md`: the first chunk gets the extracted-number name, the second
the sequential fallback. -/
theorem claim_C9_witness :
    ∃ files, runSections "specs".toList "doc.md".toList "### 4.1 Foo\n### Extra\n".toList =
        Except.ok files ∧
      files.length = (scanFrom 3 1 (splitlines "### 4.1 Foo\n### Extra\n".toList)).length ∧
      ∀ i, (files[i]?).map Prod.fst =
        ((scanFrom 3 1 (splitlines "### 4.1 Foo\n### Extra\n".toList))[i]?).map (fun p =>
          pathJoin (pathJoin "specs".toList (pathStem "doc.md".toList))
            (if (extract_section_number p.2).isEmpty = true then
              fmt02 (i + 1) ++ '-' :: (heading_to_slug_sec p.2 ++ ".md".toList)
             else
              extract_section_number p.2 ++ '-' :: (heading_to_slug_sec p.2 ++ ".md".toList))) :=
  claim_C9 "specs".toList "doc.md".toList "### 4.1 Foo\n### Extra\n".toList (by decide)

/-- C10: within one chapter-splitter run the destination paths are pairwise
distinct (each file name starts with the chunk's distinct zero-padded 1-based
index, and the index prefix is delimited by the first hyphen), so no chunk
overwrites another; the section splitter lacks this guarantee: two headings
with equal extracted section number and equal slug map to the same path. -/
theorem claim_C10 :
    (∀ (outDir text : List Char) (files : List (List Char × List Char)),
      runChapters outDir text = Except.ok files → (files.map Prod.fst).Nodup) ∧
    runSections "specs".toList "doc.md".toList "### 4.1 Foo\nA\n### 4.1 Foo\n".toList =
      Except.ok [("specs/doc/4.1-foo.md".toList, "### 4.1 Foo\nA\n".toList),
                 ("specs/doc/4.1-foo.md".toList, "### 4.1 Foo\n".toList)] := by
  constructor
  · intro outDir text files hrun
    simp only [runChapters] at hrun
    split at hrun
    · exact absurd hrun (by simp)
    · have hfiles : files = buildFiles
          (fun i h => pathJoin outDir (chapterName i h)) (splitlines text) 0
          (scanFrom 2 1 (splitlines text)) := by
        injection hrun with h1
        exact h1.symm
      rw [hfiles]
      exact buildFiles_fst_nodup _ (splitlines text)
        (fun k k' h h' hkk => chapterMk_inj outDir k k' h h' hkk)
        (scanFrom 2 1 (splitlines text)) 0
  · rfl

/-- Witness for C10: the chapter run of the two-chapter document produces
pairwise distinct destination paths. -/
theorem claim_C10_witness :
    (([("out/01-intro.md".toList, "## 1. Intro\nA\n".toList),
       ("out/02-setup.md".toList, "## 2. Setup\nB\nC\n".toList)] :
      List (List Char × List Char)).map Prod.fst).Nodup :=
  claim_C10.1 "out".toList "## 1. Intro\nA\n## 2. Setup\nB\nC\n".toList
    [("out/01-intro.md".toList, "## 1. Intro\nA\n".toList),
     ("out/02-setup.md".toList, "## 2. Setup\nB\nC\n".toList)] (by rfl)
